import Mathlib

/-!
Verification of the federated trust-weighted distillation orchestrator
(`src/training/trainer.py`).  The Python `Trainer` class is shallowly
embedded: machine floats become rationals, Python lists become Lean
lists, Python `list[i]` indexing (including negative wraparound and
`IndexError`) is modelled by `pyGet`, and client capability calls are
modelled as pure functions over an abstract per-client state.  The
orchestrator additionally emits an event log recording every
`client.train` and `client.calculate_soft_decision_target` invocation
together with the exact arguments passed, so that call-trace properties
can be stated.
-/

/-- Soft decisions: a per-sample list of per-class scores
(`Tensor[referenceSize × numClasses]`). -/
abbrev SD := List (List ℚ)

/-- Scoring function `score(trueLabels, predictedLabels) -> scalar`
(`accuracy_score` / `balanced_accuracy_score` are external to the repo). -/
abbrev ScoreFn := List ℕ → List ℕ → ℚ

/-- Mode argument of `client.test` (`mode='train'` / `mode='test'`). -/
inductive Mode where
  | train
  | test
deriving DecidableEq

/-- Modelled from the spec: the metric-identifier type `MetricName` lives in
`src/utils/types.py`, which is not under `src/`; the spec enumerates the set
as exactly {Accuracy (`acc`), BalancedAccuracy (`bacc`)}.  The `unknown`
constructor stands for any identifier outside that enumerated set that a
caller may pass (Python performs no static check). -/
inductive MetricName where
  | acc
  | bacc
  | unknown (s : String)
deriving DecidableEq

/-- Errors the trainer can raise: the construction-time
`UnknownNameCustomEnumException`, a Python `IndexError` from list/dict
indexing, and a type error from calling a list method on a tensor. -/
inductive TrainerErr where
  | unknownNameCustomEnum (m : MetricName)
  | indexError
  | typeError
deriving DecidableEq

/-- One slot of `self.trust_weights_round`: during a round it is a plain
Python list being appended to (`collecting`); after `torch.stack` it is a
stacked tensor, represented by its list of rows (`stacked`). -/
inductive TrustEntry (TW : Type) where
  | collecting (l : List TW)
  | stacked (l : List TW)
deriving DecidableEq

/-- Instrumentation: one entry per client-capability call made by the
orchestrator, recording the exact arguments passed. -/
inductive Event (TW : Type) where
  | trainCall (idx : ℕ) (target : Option SD)
  | calcTarget (idx : ℕ) (epoch : ℕ) (prior : List SD) (tw : TW)
  | inferred (idx : ℕ) (sd : SD)
deriving DecidableEq

/-- The client capability interface (external collaborator, spec §6):
`ρ` is the reference-loader type, `σ` the client's private model state,
`TW` the trust-weight tensor type.  `train` mutates the client
(returns the new state); the other capabilities return values. -/
structure ClientOps (ρ σ TW : Type) where
  train : σ → ρ → Option SD → σ
  test : σ → MetricName → Mode → ℚ
  infer : σ → ρ → SD × List ℕ
  calcTarget : σ → ℕ → List SD → Option SD × TW

/-- Construction-time configuration of `Trainer` (the fields set by
`Trainer.__init__` that never change afterwards). -/
structure Cfg (ρ : Type) where
  ref_loader : ρ
  clients_sample_size : List ℕ
  pretraining_rounds : ℕ
  num_local_epochs : ℕ
  metric_name : MetricName
  metric : ScoreFn

/-- The mutable history state of a `Trainer` object: `self.soft_decisions`,
`self.train_accuracies`, `self.test_accuracies`, `self.ref_accuracies` and
`self.trust_weights_round` (a dict with consecutive integer keys, modelled
as a list indexed by round). -/
structure Hists (TW : Type) where
  soft_decisions : List (List SD)
  train_accuracies : List (List ℚ)
  test_accuracies : List (List ℚ)
  ref_accuracies : List (List ℚ)
  trust_weights_round : List (TrustEntry TW)
deriving DecidableEq

/-- Per-round report record: the means and deltas the loop emits via the
progress bar / logging sink (spec §4.4). -/
structure RoundReport where
  round : ℕ
  test_accuracy : ℚ
  test_delta : ℚ
  ref_accuracy : ℚ
  ref_delta : ℚ
deriving DecidableEq

/-- Result of a whole run: final client objects, final histories, the
per-round reports and the per-round event logs. -/
structure RunResult (ρ σ TW : Type) where
  clients : List (ClientOps ρ σ TW × σ)
  hists : Hists TW
  reports : List RoundReport
  log : List (List (Event TW))

/-- Python `lst[i]` for a non-negative index: `IndexError` when out of
range. -/
def listGetE {α : Type} (l : List α) (i : ℕ) : Except TrainerErr α :=
  match l.get? i with
  | some a => .ok a
  | none => .error .indexError

/-- Python `lst[i]` for an `int` index: negative indices wrap around from
the end (`lst[-1]` is the last element); out-of-range raises `IndexError`. -/
def pyGet {α : Type} (l : List α) (i : ℤ) : Except TrainerErr α :=
  if 0 ≤ i then listGetE l i.toNat
  else if 0 ≤ (l.length : ℤ) + i then listGetE l ((l.length : ℤ) + i).toNat
  else .error .indexError

/-- In-place update `lst[i] = f(lst[i])` on a Python list; `IndexError`
when the index does not exist, and `f` itself may raise. -/
def modifyE {α : Type} (l : List α) (i : ℕ) (f : α → Except TrainerErr α) :
    Except TrainerErr (List α) :=
  match l, i with
  | [], _ => .error .indexError
  | a :: as, 0 =>
    match f a with
    | .ok b => .ok (b :: as)
    | .error err => .error err
  | a :: as, n + 1 =>
    match modifyE as n f with
    | .ok bs => .ok (a :: bs)
    | .error err => .error err

/-- Python dict assignment `d[i] = a` for the round-keyed
`trust_weights_round` dict; in every reachable state the keys are the
consecutive rounds `0..len-1`, so assigning key `len` appends. -/
def dictAssign {α : Type} (l : List α) (i : ℕ) (a : α) : List α :=
  if i < l.length then l.set i a else l ++ [a]

/-- `np.mean` over a Python list of floats, with rationals standing in for
IEEE floats (on the empty list numpy yields NaN; here the rational
convention `sum / 0 = 0` applies). -/
def npMean (l : List ℚ) : ℚ := l.sum / (l.length : ℚ)

/-- Index of the first maximal element of a row, tracking the best value
and best index seen so far. -/
def argmaxFrom : List ℚ → ℕ → ℚ → ℕ → ℕ
  | [], _, _, best => best
  | a :: rest, i, bv, best =>
    if bv < a then argmaxFrom rest (i + 1) a i
    else argmaxFrom rest (i + 1) bv best

/-- `torch.argmax` of one row (index of the first maximum; 0 on an empty
row). -/
def argmaxIdx : List ℚ → ℕ
  | [] => 0
  | a :: rest => argmaxFrom rest 1 a 0

/-- `torch.argmax(soft_decision, dim=1)`: per-row argmax. -/
def argmaxRows (m : SD) : List ℕ := m.map argmaxIdx

/-- Appending a trust weight to the current round's slot
(`self.trust_weights_round[e].append(w)`); calling `append` on an
already-stacked tensor would be a Python type error (unreachable). -/
def trustAppend {TW : Type} (w : TW) : TrustEntry TW → Except TrainerErr (TrustEntry TW)
  | .collecting l => .ok (.collecting (l ++ [w]))
  | .stacked _ => .error .typeError

/-- End-of-round consolidation: `if len(slot) > 0: slot = torch.stack(slot)`.
An empty slot is left as the empty Python list. -/
def consolidate {TW : Type} : TrustEntry TW → TrustEntry TW
  | .collecting [] => .collecting []
  | .collecting (w :: ws) => .stacked (w :: ws)
  | .stacked l => .stacked l

namespace Trainer

variable {ρ σ TW : Type}

/-- The `match metric` in `Trainer.__init__`: maps the identifier to the
corresponding sklearn scoring function, raising
`UnknownNameCustomEnumException` on anything outside the enumerated set. -/
def resolveMetric (accuracy_score balanced_accuracy_score : ScoreFn) :
    MetricName → Except TrainerErr ScoreFn
  | .acc => .ok accuracy_score
  | .bacc => .ok balanced_accuracy_score
  | .unknown s => .error (.unknownNameCustomEnum (.unknown s))

/-- Histories as created by `Trainer.__init__`: all empty. -/
def emptyHists (TW : Type) : Hists TW := ⟨[], [], [], [], []⟩

/-- `Trainer.__init__`: stores the configuration, resolves the metric (or
raises before any round can run) and creates the empty histories. -/
def init (accuracy_score balanced_accuracy_score : ScoreFn)
    (clients : List (ClientOps ρ σ TW × σ)) (ref_loader : ρ)
    (clients_sample_size : List ℕ) (pretraining_rounds num_local_epochs : ℕ)
    (metric : MetricName) :
    Except TrainerErr (Cfg ρ × List (ClientOps ρ σ TW × σ) × Hists TW) :=
  match resolveMetric accuracy_score balanced_accuracy_score metric with
  | .error err => .error err
  | .ok f =>
    .ok (⟨ref_loader, clients_sample_size, pretraining_rounds,
          num_local_epochs, metric, f⟩, clients, emptyHists TW)

/-- The `for current_local_epoch in range(num_local_epochs)` loop: calls
`client.train(self.ref_loader, soft_decision_target)` that many times with
the one target computed at the start of the client's turn, logging each
call. -/
def localEpochs (cfg : Cfg ρ) (c : ClientOps ρ σ TW) (i : ℕ)
    (target : Option SD) : ℕ → σ → σ × List (Event TW)
  | 0, cs => (cs, [])
  | n + 1, cs =>
    let cs1 := c.train cs cfg.ref_loader target
    let rest := localEpochs cfg c i target n cs1
    (rest.1, .trainCall i target :: rest.2)

/-- The body of one client's turn after the phase gate: local epochs, then
the post-round evaluation block (train accuracy, reference inference, test
accuracy, reference accuracy), each appended to the round-`e` slot of its
history. -/
def evalPhase (cfg : Cfg ρ) (e i : ℕ) (c : ClientOps ρ σ TW) (cs : σ)
    (target : Option SD) (st : Hists TW) :
    Except TrainerErr (σ × Hists TW × List (Event TW)) :=
  let loc := localEpochs cfg c i target cfg.num_local_epochs cs
  let cs1 := loc.1
  let train_acc := c.test cs1 cfg.metric_name .train
  match modifyE st.train_accuracies e (fun r => .ok (r ++ [train_acc])) with
  | .error err => .error err
  | .ok ta =>
    let inf := c.infer cs1 cfg.ref_loader
    let soft_decision := inf.1
    let ref_y := inf.2
    match modifyE st.soft_decisions e (fun r => .ok (r ++ [soft_decision])) with
    | .error err => .error err
    | .ok sds =>
      let test_acc := c.test cs1 cfg.metric_name .test
      match modifyE st.test_accuracies e (fun r => .ok (r ++ [test_acc])) with
      | .error err => .error err
      | .ok te =>
        let ref_pred := argmaxRows soft_decision
        let ref_acc := cfg.metric ref_y ref_pred
        match modifyE st.ref_accuracies e (fun r => .ok (r ++ [ref_acc])) with
        | .error err => .error err
        | .ok ra =>
          .ok (cs1,
               { st with train_accuracies := ta, soft_decisions := sds,
                         test_accuracies := te, ref_accuracies := ra },
               loc.2 ++ [.inferred i soft_decision])

/-- One client's turn in `Trainer.__global_epoch`: the phase gate
(`target = None` during pretraining, else
`client.calculate_soft_decision_target(e, self.soft_decisions[e - 1])`
with the trust weight appended to this round's slot), then `evalPhase`. -/
def clientStep (cfg : Cfg ρ) (e i : ℕ) (c : ClientOps ρ σ TW) (cs : σ)
    (st : Hists TW) : Except TrainerErr (σ × Hists TW × List (Event TW)) :=
  if e < cfg.pretraining_rounds then
    evalPhase cfg e i c cs none st
  else
    match pyGet st.soft_decisions ((e : ℤ) - 1) with
    | .error err => .error err
    | .ok prior =>
      let res := c.calcTarget cs e prior
      match modifyE st.trust_weights_round e (trustAppend res.2) with
      | .error err => .error err
      | .ok twr =>
        match evalPhase cfg e i c cs res.1 { st with trust_weights_round := twr } with
        | .error err => .error err
        | .ok out => .ok (out.1, out.2.1, .calcTarget i e prior res.2 :: out.2.2)

/-- The `for idx, client in self.clients.items()` loop of
`Trainer.__global_epoch`: clients run strictly sequentially in the fixed
collection order, each seeing the state left by its predecessors. -/
def runClients (cfg : Cfg ρ) (e : ℕ) :
    ℕ → List (ClientOps ρ σ TW × σ) → Hists TW →
    Except TrainerErr (List (ClientOps ρ σ TW × σ) × Hists TW × List (Event TW))
  | _, [], st => .ok ([], st, [])
  | i, p :: rest, st =>
    match clientStep cfg e i p.1 p.2 st with
    | .error err => .error err
    | .ok out =>
      match runClients cfg e (i + 1) rest out.2.1 with
      | .error err => .error err
      | .ok tl => .ok ((p.1, out.1) :: tl.1, tl.2.1, out.2.2 ++ tl.2.2)

/-- Start-of-round slot allocation in `Trainer.train`:
`self.trust_weights_round[e] = []` plus one `.append([])` on each of the
four list histories. -/
def allocRound (e : ℕ) (st : Hists TW) : Hists TW :=
  { soft_decisions := st.soft_decisions ++ [[]],
    train_accuracies := st.train_accuracies ++ [[]],
    test_accuracies := st.test_accuracies ++ [[]],
    ref_accuracies := st.ref_accuracies ++ [[]],
    trust_weights_round := dictAssign st.trust_weights_round e (.collecting []) }

/-- One iteration of the `for current_global_epoch in global_epochs` loop:
allocate slots, run `__global_epoch`, stack the trust weights if any were
collected, compute the round means, and build the report record (for round
0 the previous-mean baseline is set to the current mean before the deltas
are reported). -/
def roundBody (cfg : Cfg ρ) (e : ℕ) (prevT prevR : ℚ)
    (cls : List (ClientOps ρ σ TW × σ)) (st : Hists TW) :
    Except TrainerErr
      (List (ClientOps ρ σ TW × σ) × Hists TW × RoundReport × List (Event TW)) :=
  let st1 := allocRound e st
  match runClients cfg e 0 cls st1 with
  | .error err => .error err
  | .ok out =>
    let cls1 := out.1
    let st2 := out.2.1
    let evs := out.2.2
    match modifyE st2.trust_weights_round e (fun t => .ok (consolidate t)) with
    | .error err => .error err
    | .ok twr =>
      let st3 := { st2 with trust_weights_round := twr }
      match listGetE st3.test_accuracies e with
      | .error err => .error err
      | .ok teRow =>
        match listGetE st3.ref_accuracies e with
        | .error err => .error err
        | .ok raRow =>
          let test_accuracy := npMean teRow
          let ref_accuracy := npMean raRow
          let pT := if e = 0 then test_accuracy else prevT
          let pR := if e = 0 then ref_accuracy else prevR
          .ok (cls1, st3,
               ⟨e, test_accuracy, test_accuracy - pT,
                ref_accuracy, ref_accuracy - pR⟩, evs)

/-- The round loop of `Trainer.train`, with the two `prev_*_accuracy`
variables threaded explicitly (both are set to the current means at the
end of every iteration). -/
def trainAux (cfg : Cfg ρ) :
    ℕ → ℕ → ℚ → ℚ → List (ClientOps ρ σ TW × σ) → Hists TW →
    Except TrainerErr (RunResult ρ σ TW)
  | 0, _, _, _, cls, st => .ok ⟨cls, st, [], []⟩
  | n + 1, e, prevT, prevR, cls, st =>
    match roundBody cfg e prevT prevR cls st with
    | .error err => .error err
    | .ok out =>
      match trainAux cfg n (e + 1) out.2.2.1.test_accuracy out.2.2.1.ref_accuracy
          out.1 out.2.1 with
      | .error err => .error err
      | .ok r => .ok ⟨r.clients, r.hists, out.2.2.1 :: r.reports, out.2.2.2 :: r.log⟩

/-- `Trainer.train(global_epochs)` run from the freshly-constructed state
(empty histories, `prev_test_accuracy = prev_ref_accuracy = 0`), keeping
the whole run result. -/
def trainResult (cfg : Cfg ρ) (cls : List (ClientOps ρ σ TW × σ)) (N : ℕ) :
    Except TrainerErr (RunResult ρ σ TW) :=
  trainAux cfg N 0 0 0 cls (emptyHists TW)

/-- `Trainer.train`'s return value: the triple
`(self.trust_weights_round, self.test_accuracies, self.ref_accuracies)`. -/
def train (cfg : Cfg ρ) (cls : List (ClientOps ρ σ TW × σ)) (N : ℕ) :
    Except TrainerErr (List (TrustEntry TW) × List (List ℚ) × List (List ℚ)) :=
  match trainResult cfg cls N with
  | .error err => .error err
  | .ok r => .ok (r.hists.trust_weights_round, r.hists.test_accuracies,
                  r.hists.ref_accuracies)

/-- Total extraction of a run result (the error branch is unreachable, as
proved below; the fallback is the empty run). -/
def runResultD (cfg : Cfg ρ) (cls : List (ClientOps ρ σ TW × σ)) (N : ℕ) :
    RunResult ρ σ TW :=
  match trainResult cfg cls N with
  | .ok r => r
  | .error _ => ⟨[], emptyHists TW, [], []⟩

end Trainer

/-- Arguments of the `calculate_soft_decision_target` calls in a log, in
call order: (client index, epoch argument, prior-round collection passed). -/
def calcArgs {TW : Type} : List (Event TW) → List (ℕ × ℕ × List SD)
  | [] => []
  | .calcTarget i e p _ :: rest => (i, e, p) :: calcArgs rest
  | .trainCall _ _ :: rest => calcArgs rest
  | .inferred _ _ :: rest => calcArgs rest

/-- Trust weights returned by the `calculate_soft_decision_target` calls in
a log, in call order. -/
def calcTWs {TW : Type} : List (Event TW) → List TW
  | [] => []
  | .calcTarget _ _ _ w :: rest => w :: calcTWs rest
  | .trainCall _ _ :: rest => calcTWs rest
  | .inferred _ _ :: rest => calcTWs rest

/-- Soft decisions produced by the clients (`infer_on_refdata` outputs) in
a log, in production order. -/
def inferredSDs {TW : Type} : List (Event TW) → List SD
  | [] => []
  | .inferred _ sd :: rest => sd :: inferredSDs rest
  | .trainCall _ _ :: rest => inferredSDs rest
  | .calcTarget _ _ _ _ :: rest => inferredSDs rest

/-- Arguments of the `client.train` calls in a log, in call order:
(client index, target passed). -/
def trainCallPairs {TW : Type} : List (Event TW) → List (ℕ × Option SD)
  | [] => []
  | .trainCall i t :: rest => (i, t) :: trainCallPairs rest
  | .calcTarget _ _ _ _ :: rest => trainCallPairs rest
  | .inferred _ _ :: rest => trainCallPairs rest

/-- Shape of the `client.train` call sequence of one round: for each client
in order, `nl` consecutive calls all passing that client's one target. -/
def trainBlocks (nl : ℕ) : ℕ → List (Option SD) → List (ℕ × Option SD)
  | _, [] => []
  | i, t :: rest => List.replicate nl (i, t) ++ trainBlocks nl (i + 1) rest

/-- Event log of one pretraining round (`e < pretraining_rounds`), given
the soft decisions the clients produce: no `calculate_soft_decision_target`
calls, every `train` call passes `None`. -/
def roundLogPre {TW : Type} (nl : ℕ) : ℕ → List SD → List (Event TW)
  | _, [] => []
  | i, sd :: rest =>
    List.replicate nl (.trainCall i none) ++
      (.inferred i sd :: roundLogPre nl (i + 1) rest)

/-- Event log of one distillation round `e ≥ 1`, given per-client
(target, trust weight, soft decision) triples: every client receives the
same prior collection `P`. -/
def roundLogDist {TW : Type} (nl e : ℕ) (P : List SD) :
    ℕ → List (Option SD × TW × SD) → List (Event TW)
  | _, [] => []
  | i, x :: rest =>
    .calcTarget i e P x.2.1 ::
      (List.replicate nl (.trainCall i x.1) ++
        (.inferred i x.2.2 :: roundLogDist nl e P (i + 1) rest))

/-- Event log of round 0 when `pretraining_rounds = 0`: Python's `[-1]`
lookback makes each client receive the partial collection accumulated so
far in round 0 itself. -/
def roundLogZero {TW : Type} (nl : ℕ) :
    ℕ → List SD → List (Option SD × TW × SD) → List (Event TW)
  | _, _, [] => []
  | i, cur, x :: rest =>
    .calcTarget i 0 cur x.2.1 ::
      (List.replicate nl (.trainCall i x.1) ++
        (.inferred i x.2.2 :: roundLogZero nl (i + 1) (cur ++ [x.2.2]) rest))

/-- Reports the loop emits given the successive round means, threading the
previous-mean baselines (round 0 zeroes its deltas by overwriting the
baseline with the current mean first). -/
def reportsOf : ℕ → ℚ → ℚ → List (ℚ × ℚ) → List RoundReport
  | _, _, _, [] => []
  | e, pT, pR, m :: rest =>
    ⟨e, m.1, m.1 - (if e = 0 then m.1 else pT),
     m.2, m.2 - (if e = 0 then m.2 else pR)⟩ ::
      reportsOf (e + 1) m.1 m.2 rest

/-- Everything one round contributes to the histories and the log. -/
structure RoundOut (TW : Type) where
  sds : List SD
  tas : List ℚ
  tes : List ℚ
  ras : List ℚ
  tws : List TW
  evs : List (Event TW)

/-- Fallback `RoundOut` for total indexing. -/
def RoundOut.default (TW : Type) : RoundOut TW := ⟨[], [], [], [], [], []⟩

/-- Everything `roundBody` guarantees about the contribution of round `e`
to the histories and the log, for a run with `n` clients whose previous
round produced the collection `prevSD`. -/
def RoundOutOk {ρ : Type} (cfg : Cfg ρ) (n e : ℕ) (prevSD : List SD)
    {TW : Type} (o : RoundOut TW) : Prop :=
  o.sds.length = n ∧ o.tas.length = n ∧ o.tes.length = n ∧ o.ras.length = n ∧
  inferredSDs o.evs = o.sds ∧
  (e < cfg.pretraining_rounds →
    o.tws = [] ∧ calcArgs o.evs = [] ∧
    trainCallPairs o.evs =
      trainBlocks cfg.num_local_epochs 0 (List.replicate n none)) ∧
  (cfg.pretraining_rounds ≤ e →
    o.tws.length = n ∧ calcTWs o.evs = o.tws ∧
    (∃ ts : List (Option SD), ts.length = n ∧
       trainCallPairs o.evs = trainBlocks cfg.num_local_epochs 0 ts) ∧
    (1 ≤ e → calcArgs o.evs = (List.range n).map (fun j => (j, e, prevSD))) ∧
    (e = 0 → calcArgs o.evs = (List.range n).map (fun j => (j, 0, o.sds.take j))))

/-- Whether a Python call returned normally instead of raising. -/
def exceptIsOk {e a : Type} : Except e a → Bool
  | .ok _ => true
  | .error _ => false

/-- Extensional equality of two clients' capability functions
("identically-behaving, deterministic" clients in the determinism claim). -/
def ClientOps.ext {ρ σ TW : Type} (c d : ClientOps ρ σ TW) : Prop :=
  (∀ s rl t, c.train s rl t = d.train s rl t) ∧
  (∀ s m md, c.test s m md = d.test s m md) ∧
  (∀ s rl, c.infer s rl = d.infer s rl) ∧
  (∀ s e p, c.calcTarget s e p = d.calcTarget s e p)

/-- The property the specification asserts of a pretraining-round
trust-weight slot: an explicit marker distinct from the ambiguous empty
Python list. -/
def notCollectedMarker {TW : Type} (t : TrustEntry TW) : Prop :=
  t ≠ TrustEntry.collecting []

/-- Exact sequence of `calculate_soft_decision_target` calls in round `e`
of a distillation phase round with `e ≥ 1`: one call per client in client
order, each passing epoch `e` and exactly the soft decisions produced by
all clients in round `e - 1` (claim C1). -/
def distillCallsSpec {ρ σ TW : Type} (cfg : Cfg ρ)
    (cls : List (ClientOps ρ σ TW × σ)) (N e : ℕ) : Prop :=
  ∃ r : RunResult ρ σ TW,
    Trainer.trainResult cfg cls N = .ok r ∧
    (inferredSDs (r.log.getD (e - 1) [])).length = cls.length ∧
    calcArgs (r.log.getD e []) =
      (List.range cls.length).map
        (fun i => (i, e, inferredSDs (r.log.getD (e - 1) [])))

/-- Trust-weight history shape (amended claim C3): the slot of a
pretraining round is the empty Python list, and the slot of a distillation
round with at least one client is the stacked client-ordered tensor of the
returned trust weights. -/
def trustHistorySpec {ρ σ TW : Type} (cfg : Cfg ρ)
    (cls : List (ClientOps ρ σ TW × σ)) (N : ℕ) : Prop :=
  ∃ r : RunResult ρ σ TW,
    Trainer.trainResult cfg cls N = .ok r ∧
    ∀ e, e < N →
      (e < cfg.pretraining_rounds →
        r.hists.trust_weights_round.getD e (.stacked []) =
          TrustEntry.collecting []) ∧
      (cfg.pretraining_rounds ≤ e →
        ∃ ws : List TW,
          r.hists.trust_weights_round.getD e (.stacked []) =
            TrustEntry.stacked ws ∧
          ws.length = cls.length ∧ ws = calcTWs (r.log.getD e []))

/-- Round-0 behavior under pretraining (claim C4): no
`calculate_soft_decision_target` call, and the `client.train` calls are
exactly `num_local_epochs` per client, all passing `None`. -/
def pretrainRoundZeroSpec {ρ σ TW : Type} (cfg : Cfg ρ)
    (cls : List (ClientOps ρ σ TW × σ)) (N : ℕ) : Prop :=
  ∃ r : RunResult ρ σ TW,
    Trainer.trainResult cfg cls N = .ok r ∧
    calcArgs (r.log.getD 0 []) = [] ∧
    trainCallPairs (r.log.getD 0 []) =
      trainBlocks cfg.num_local_epochs 0 (List.replicate cls.length none)

/-- Per-round `client.train` call pattern (claim C5): in round `e` every
client is trained exactly `num_local_epochs` consecutive times, all calls
of one client passing that client's single target. -/
def localEpochCallsSpec {ρ σ TW : Type} (cfg : Cfg ρ)
    (cls : List (ClientOps ρ σ TW × σ)) (N e : ℕ) : Prop :=
  ∃ r : RunResult ρ σ TW,
    Trainer.trainResult cfg cls N = .ok r ∧
    ∃ ts : List (Option SD), ts.length = cls.length ∧
      trainCallPairs (r.log.getD e []) =
        trainBlocks cfg.num_local_epochs 0 ts

/-- Whole-run history shape (claim C7): `train` returns the trust-weight,
test-accuracy and ref-accuracy histories with one entry per round and one
accuracy value per client per round. -/
def historiesShapeSpec {ρ σ TW : Type} (cfg : Cfg ρ)
    (cls : List (ClientOps ρ σ TW × σ)) (N : ℕ) : Prop :=
  ∃ (tw : List (TrustEntry TW)) (te ra : List (List ℚ)),
    Trainer.train cfg cls N = .ok (tw, te, ra) ∧
    tw.length = N ∧ te.length = N ∧ ra.length = N ∧
    (∀ row ∈ te, row.length = cls.length) ∧
    (∀ row ∈ ra, row.length = cls.length)

/-- Reported means and deltas (claim C8): round 0 reports zero deltas and
every later round reports current mean minus previous round's mean. -/
def reportDeltaSpec {ρ σ TW : Type} (cfg : Cfg ρ)
    (cls : List (ClientOps ρ σ TW × σ)) (N : ℕ) : Prop :=
  ∃ r : RunResult ρ σ TW,
    Trainer.trainResult cfg cls N = .ok r ∧
    r.reports.length = N ∧
    ∀ e, e < N →
      (r.reports.getD e ⟨0, 0, 0, 0, 0⟩).round = e ∧
      (r.reports.getD e ⟨0, 0, 0, 0, 0⟩).test_accuracy =
        npMean (r.hists.test_accuracies.getD e []) ∧
      (r.reports.getD e ⟨0, 0, 0, 0, 0⟩).ref_accuracy =
        npMean (r.hists.ref_accuracies.getD e []) ∧
      (e = 0 → (r.reports.getD e ⟨0, 0, 0, 0, 0⟩).test_delta = 0 ∧
        (r.reports.getD e ⟨0, 0, 0, 0, 0⟩).ref_delta = 0) ∧
      (1 ≤ e →
        (r.reports.getD e ⟨0, 0, 0, 0, 0⟩).test_delta =
          npMean (r.hists.test_accuracies.getD e []) -
            npMean (r.hists.test_accuracies.getD (e - 1) []) ∧
        (r.reports.getD e ⟨0, 0, 0, 0, 0⟩).ref_delta =
          npMean (r.hists.ref_accuracies.getD e []) -
            npMean (r.hists.ref_accuracies.getD (e - 1) []))

/-- Round-0 behavior when `pretraining_rounds = 0` (claim C10): the run
raises no error, and Python's `-1` wraparound makes client `i`'s
`calculate_soft_decision_target` receive exactly the partial collection of
soft decisions already produced by clients `0..i-1` in round 0 itself. -/
def zeroPretrainRoundZeroSpec {ρ σ TW : Type} (cfg : Cfg ρ)
    (cls : List (ClientOps ρ σ TW × σ)) (N : ℕ) : Prop :=
  ∃ r : RunResult ρ σ TW,
    Trainer.trainResult cfg cls N = .ok r ∧
    calcArgs (r.log.getD 0 []) =
      (List.range cls.length).map
        (fun i => (i, 0, (inferredSDs (r.log.getD 0 [])).take i))

/-- Concrete scoring function for the witness runs (exact match of the
two label sequences). -/
def demoMetric : ScoreFn := fun y p => if y = p then 1 else 0

/-- Concrete deterministic client for the witness runs: the state counts
`train` calls, `infer` and `calculate_soft_decision_target` depend on it. -/
def demoClient : ClientOps Unit ℕ ℕ where
  train := fun s _ _ => s + 1
  test := fun s _ m => match m with | .train => (s : ℚ) | .test => (s : ℚ) / 2
  infer := fun s _ => ([[(s : ℚ), 1]], [0, 1])
  calcTarget := fun s e p => (some [[(s : ℚ), (e : ℚ)]], s + e + p.length)

/-- Two concrete clients with distinct initial states. -/
def demoClients : List (ClientOps Unit ℕ ℕ × ℕ) := [(demoClient, 0), (demoClient, 5)]

/-- Concrete configuration with a chosen pretraining threshold. -/
def demoCfg (pt : ℕ) : Cfg Unit := ⟨(), [3, 4], pt, 1, .acc, demoMetric⟩


/-! ### Helper lemmas on the Python-list primitives -/

theorem listGetE_append_last {α : Type} (l : List α) (x : α) :
    listGetE (l ++ [x]) l.length = .ok x := by
  simp [listGetE, List.getElem?_concat_length]

theorem listGetE_append_left {α : Type} (l1 l2 : List α) (i : ℕ)
    (h : i < l1.length) : listGetE (l1 ++ l2) i = listGetE l1 i := by
  simp [listGetE, List.getElem?_append, h]

theorem listGetE_ok_getD {α : Type} (l : List α) (i : ℕ) (d : α)
    (h : i < l.length) : listGetE l i = .ok (l.getD i d) := by
  simp [listGetE, List.getD_eq_getElem?_getD, List.getElem?_eq_getElem h]

theorem pyGet_coe_sub_one {α : Type} (l : List α) (e : ℕ) (h : 1 ≤ e) :
    pyGet l ((e : ℤ) - 1) = listGetE l (e - 1) := by
  have h0 : (0 : ℤ) ≤ (e : ℤ) - 1 := by omega
  rw [pyGet, if_pos h0]
  congr 1
  omega

theorem pyGet_neg_one_append {α : Type} (l : List α) (x : α) :
    pyGet (l ++ [x]) (-1) = .ok x := by
  rw [pyGet, if_neg (by norm_num)]
  have h2 : (0 : ℤ) ≤ (((l ++ [x]).length : ℤ) + (-1)) := by
    simp
  rw [if_pos h2]
  have h3 : ((((l ++ [x]).length : ℤ)) + (-1)).toNat = l.length := by
    simp [List.length_append]
  rw [h3, listGetE_append_last]

theorem modifyE_append_last {α : Type} (l : List α) (x : α)
    (f : α → Except TrainerErr α) :
    modifyE (l ++ [x]) l.length f =
      match f x with
      | .ok y => .ok (l ++ [y])
      | .error err => .error err := by
  induction l with
  | nil => rcases h : f x with err | y <;> simp [modifyE, h]
  | cons a as ih => rcases h : f x with err | y <;> simp_all [modifyE]

theorem modifyE_last_ok {α : Type} (l : List α) (x : α) (g : α → α) (i : ℕ)
    (h : i = l.length) :
    modifyE (l ++ [x]) i (fun r => .ok (g r)) = .ok (l ++ [g x]) := by
  subst h
  rw [modifyE_append_last]

theorem dictAssign_append {α : Type} (l : List α) (a : α) :
    dictAssign l l.length a = l ++ [a] := by
  simp [dictAssign]

/-! ### Characterization of one client's turn -/

namespace Trainer

variable {ρ σ TW : Type}

theorem localEpochs_events (cfg : Cfg ρ) (c : ClientOps ρ σ TW) (i : ℕ)
    (t : Option SD) :
    ∀ (n : ℕ) (cs : σ),
      (localEpochs cfg c i t n cs).2 = List.replicate n (Event.trainCall i t) := by
  intro n
  induction n with
  | zero => intro cs; rfl
  | succ m ih => intro cs; simp [localEpochs, ih, List.replicate_succ]

theorem evalPhase_spec (cfg : Cfg ρ) (e i : ℕ) (c : ClientOps ρ σ TW) (cs : σ)
    (target : Option SD) (S : List (List SD)) (cur : List SD)
    (TA : List (List ℚ)) (ta : List ℚ) (TE : List (List ℚ)) (te : List ℚ)
    (RA : List (List ℚ)) (ra : List ℚ) (TWL : List (TrustEntry TW))
    (hS : e = S.length) (hTA : e = TA.length) (hTE : e = TE.length)
    (hRA : e = RA.length) :
    evalPhase cfg e i c cs target
        ⟨S ++ [cur], TA ++ [ta], TE ++ [te], RA ++ [ra], TWL⟩ =
      .ok ((localEpochs cfg c i target cfg.num_local_epochs cs).1,
           ⟨S ++ [cur ++ [(c.infer (localEpochs cfg c i target cfg.num_local_epochs cs).1
                            cfg.ref_loader).1]],
            TA ++ [ta ++ [c.test (localEpochs cfg c i target cfg.num_local_epochs cs).1
                            cfg.metric_name .train]],
            TE ++ [te ++ [c.test (localEpochs cfg c i target cfg.num_local_epochs cs).1
                            cfg.metric_name .test]],
            RA ++ [ra ++ [cfg.metric
                     (c.infer (localEpochs cfg c i target cfg.num_local_epochs cs).1
                        cfg.ref_loader).2
                     (argmaxRows (c.infer (localEpochs cfg c i target cfg.num_local_epochs cs).1
                        cfg.ref_loader).1)]],
            TWL⟩,
           List.replicate cfg.num_local_epochs (Event.trainCall i target) ++
             [Event.inferred i
                (c.infer (localEpochs cfg c i target cfg.num_local_epochs cs).1
                   cfg.ref_loader).1]) := by
  rw [evalPhase]
  simp only [modifyE_last_ok _ _ _ _ hS, modifyE_last_ok _ _ _ _ hTA,
    modifyE_last_ok _ _ _ _ hTE, modifyE_last_ok _ _ _ _ hRA,
    localEpochs_events]

end Trainer

namespace Trainer

variable {ρ σ TW : Type}

theorem clientStep_pre (cfg : Cfg ρ) (e i : ℕ) (c : ClientOps ρ σ TW) (cs : σ)
    (S : List (List SD)) (cur : List SD) (TA : List (List ℚ)) (ta : List ℚ)
    (TE : List (List ℚ)) (te : List ℚ) (RA : List (List ℚ)) (ra : List ℚ)
    (TWL : List (TrustEntry TW)) (hpt : e < cfg.pretraining_rounds)
    (hS : e = S.length) (hTA : e = TA.length) (hTE : e = TE.length)
    (hRA : e = RA.length) :
    ∃ (cs1 : σ) (sd : SD) (a b r : ℚ),
      clientStep cfg e i c cs ⟨S ++ [cur], TA ++ [ta], TE ++ [te], RA ++ [ra], TWL⟩ =
        .ok (cs1,
             ⟨S ++ [cur ++ [sd]], TA ++ [ta ++ [a]], TE ++ [te ++ [b]],
              RA ++ [ra ++ [r]], TWL⟩,
             List.replicate cfg.num_local_epochs (Event.trainCall i none) ++
               [Event.inferred i sd]) := by
  exact ⟨_, _, _, _, _, by
    rw [clientStep, if_pos hpt]
    exact evalPhase_spec cfg e i c cs none S cur TA ta TE te RA ra TWL hS hTA hTE hRA⟩

theorem clientStep_dist (cfg : Cfg ρ) (e i : ℕ) (c : ClientOps ρ σ TW) (cs : σ)
    (S : List (List SD)) (cur : List SD) (TA : List (List ℚ)) (ta : List ℚ)
    (TE : List (List ℚ)) (te : List ℚ) (RA : List (List ℚ)) (ra : List ℚ)
    (TWL : List (TrustEntry TW)) (tws : List TW)
    (hpt : cfg.pretraining_rounds ≤ e) (he : 1 ≤ e)
    (hS : e = S.length) (hTA : e = TA.length) (hTE : e = TE.length)
    (hRA : e = RA.length) (hTW : e = TWL.length) :
    ∃ (cs1 : σ) (sd : SD) (a b r : ℚ),
      clientStep cfg e i c cs
          ⟨S ++ [cur], TA ++ [ta], TE ++ [te], RA ++ [ra],
           TWL ++ [.collecting tws]⟩ =
        .ok (cs1,
             ⟨S ++ [cur ++ [sd]], TA ++ [ta ++ [a]], TE ++ [te ++ [b]],
              RA ++ [ra ++ [r]],
              TWL ++ [.collecting (tws ++ [(c.calcTarget cs e (S.getD (e - 1) [])).2])]⟩,
             Event.calcTarget i e (S.getD (e - 1) [])
                 (c.calcTarget cs e (S.getD (e - 1) [])).2 ::
               (List.replicate cfg.num_local_epochs
                   (Event.trainCall i (c.calcTarget cs e (S.getD (e - 1) [])).1) ++
                 [Event.inferred i sd])) := by
  have hP : pyGet (S ++ [cur]) ((e : ℤ) - 1) = .ok (S.getD (e - 1) []) := by
    rw [pyGet_coe_sub_one _ e he, listGetE_append_left _ _ _ (by omega)]
    exact listGetE_ok_getD _ _ _ (by omega)
  have hTWmod : modifyE (TWL ++ [TrustEntry.collecting tws]) e
      (trustAppend (c.calcTarget cs e (S.getD (e - 1) [])).2) =
      .ok (TWL ++ [.collecting (tws ++ [(c.calcTarget cs e (S.getD (e - 1) [])).2])]) := by
    rw [hTW, modifyE_append_last]
    rfl
  exact ⟨_, _, _, _, _, by
    rw [clientStep, if_neg (Nat.not_lt.mpr hpt)]
    simp only [hP, hTWmod]
    rw [evalPhase_spec cfg e i c cs _ S cur TA ta TE te RA ra _ hS hTA hTE hRA]⟩

theorem clientStep_zero (cfg : Cfg ρ) (i : ℕ) (c : ClientOps ρ σ TW) (cs : σ)
    (cur : List SD) (ta te ra : List ℚ) (tws : List TW)
    (hpt : cfg.pretraining_rounds = 0) :
    ∃ (cs1 : σ) (sd : SD) (a b r : ℚ),
      clientStep cfg 0 i c cs ⟨[cur], [ta], [te], [ra], [.collecting tws]⟩ =
        .ok (cs1,
             ⟨[cur ++ [sd]], [ta ++ [a]], [te ++ [b]], [ra ++ [r]],
              [.collecting (tws ++ [(c.calcTarget cs 0 cur).2])]⟩,
             Event.calcTarget i 0 cur (c.calcTarget cs 0 cur).2 ::
               (List.replicate cfg.num_local_epochs
                   (Event.trainCall i (c.calcTarget cs 0 cur).1) ++
                 [Event.inferred i sd])) := by
  have hP : pyGet ([cur] : List (List SD)) (((0 : ℕ) : ℤ) - 1) = .ok cur := by
    have h := pyGet_neg_one_append ([] : List (List SD)) cur
    simpa using h
  have hTWmod : modifyE ([TrustEntry.collecting tws]) 0
      (trustAppend (c.calcTarget cs 0 cur).2) =
      .ok [TrustEntry.collecting (tws ++ [(c.calcTarget cs 0 cur).2])] := rfl
  exact ⟨_, _, _, _, _, by
    rw [clientStep, if_neg (by omega)]
    simp only [hP, hTWmod]
    have hev := evalPhase_spec cfg 0 i c cs (c.calcTarget cs 0 cur).1
      ([] : List (List SD)) cur ([] : List (List ℚ)) ta ([] : List (List ℚ)) te
      ([] : List (List ℚ)) ra ([TrustEntry.collecting (tws ++ [(c.calcTarget cs 0 cur).2])])
      rfl rfl rfl rfl
    simp only [List.nil_append] at hev
    rw [hev]⟩

end Trainer

namespace Trainer

variable {ρ σ TW : Type}

theorem runClients_pre (cfg : Cfg ρ) (e : ℕ) (hpt : e < cfg.pretraining_rounds)
    (S : List (List SD)) (TA TE RA : List (List ℚ)) (TWL : List (TrustEntry TW))
    (hS : e = S.length) (hTA : e = TA.length) (hTE : e = TE.length)
    (hRA : e = RA.length) :
    ∀ (cls : List (ClientOps ρ σ TW × σ)) (i : ℕ) (cur : List SD)
      (ta te ra : List ℚ),
    ∃ (cls1 : List (ClientOps ρ σ TW × σ)) (newSD : List SD)
      (newTA newTE newRA : List ℚ),
      runClients cfg e i cls ⟨S ++ [cur], TA ++ [ta], TE ++ [te], RA ++ [ra], TWL⟩ =
        .ok (cls1,
             ⟨S ++ [cur ++ newSD], TA ++ [ta ++ newTA], TE ++ [te ++ newTE],
              RA ++ [ra ++ newRA], TWL⟩,
             roundLogPre cfg.num_local_epochs i newSD) ∧
      cls1.length = cls.length ∧ newSD.length = cls.length ∧
      newTA.length = cls.length ∧ newTE.length = cls.length ∧
      newRA.length = cls.length := by
  intro cls
  induction cls with
  | nil =>
    intro i cur ta te ra
    exact ⟨[], [], [], [], [],
      by simp [runClients, roundLogPre], rfl, rfl, rfl, rfl, rfl⟩
  | cons p rest ih =>
    intro i cur ta te ra
    obtain ⟨cs1, sd, a, b, r, hstep⟩ :=
      clientStep_pre cfg e i p.1 p.2 S cur TA ta TE te RA ra TWL hpt hS hTA hTE hRA
    obtain ⟨cls1, nSD, nTA, nTE, nRA, hrun, hl1, hl2, hl3, hl4, hl5⟩ :=
      ih (i + 1) (cur ++ [sd]) (ta ++ [a]) (te ++ [b]) (ra ++ [r])
    refine ⟨(p.1, cs1) :: cls1, sd :: nSD, a :: nTA, b :: nTE, r :: nRA, ?_,
      by simp [hl1], by simp [hl2], by simp [hl3], by simp [hl4], by simp [hl5]⟩
    simp only [runClients, hstep, hrun]
    simp [roundLogPre, List.append_assoc]


theorem runClients_dist (cfg : Cfg ρ) (e : ℕ)
    (hpt : cfg.pretraining_rounds ≤ e) (he : 1 ≤ e)
    (S : List (List SD)) (TA TE RA : List (List ℚ)) (TWL : List (TrustEntry TW))
    (hS : e = S.length) (hTA : e = TA.length) (hTE : e = TE.length)
    (hRA : e = RA.length) (hTW : e = TWL.length) :
    ∀ (cls : List (ClientOps ρ σ TW × σ)) (i : ℕ) (cur : List SD)
      (ta te ra : List ℚ) (tws : List TW),
    ∃ (cls1 : List (ClientOps ρ σ TW × σ)) (trip : List (Option SD × TW × SD))
      (newTA newTE newRA : List ℚ),
      runClients cfg e i cls
          ⟨S ++ [cur], TA ++ [ta], TE ++ [te], RA ++ [ra],
           TWL ++ [.collecting tws]⟩ =
        .ok (cls1,
             ⟨S ++ [cur ++ trip.map (fun x => x.2.2)], TA ++ [ta ++ newTA],
              TE ++ [te ++ newTE], RA ++ [ra ++ newRA],
              TWL ++ [.collecting (tws ++ trip.map (fun x => x.2.1))]⟩,
             roundLogDist cfg.num_local_epochs e (S.getD (e - 1) []) i trip) ∧
      cls1.length = cls.length ∧ trip.length = cls.length ∧
      newTA.length = cls.length ∧ newTE.length = cls.length ∧
      newRA.length = cls.length := by
  intro cls
  induction cls with
  | nil =>
    intro i cur ta te ra tws
    exact ⟨[], [], [], [], [],
      by simp [runClients, roundLogDist], rfl, rfl, rfl, rfl, rfl⟩
  | cons p rest ih =>
    intro i cur ta te ra tws
    obtain ⟨cs1, sd, a, b, r, hstep⟩ :=
      clientStep_dist cfg e i p.1 p.2 S cur TA ta TE te RA ra TWL tws hpt he
        hS hTA hTE hRA hTW
    obtain ⟨cls1, trip, nTA, nTE, nRA, hrun, hl1, hl2, hl3, hl4, hl5⟩ :=
      ih (i + 1) (cur ++ [sd]) (ta ++ [a]) (te ++ [b]) (ra ++ [r])
        (tws ++ [(p.1.calcTarget p.2 e (S.getD (e - 1) [])).2])
    refine ⟨(p.1, cs1) :: cls1,
      ((p.1.calcTarget p.2 e (S.getD (e - 1) [])).1,
       (p.1.calcTarget p.2 e (S.getD (e - 1) [])).2, sd) :: trip,
      a :: nTA, b :: nTE, r :: nRA, ?_,
      by simp [hl1], by simp [hl2], by simp [hl3], by simp [hl4], by simp [hl5]⟩
    simp only [runClients, hstep, hrun]
    simp [roundLogDist, List.append_assoc]


theorem runClients_zero (cfg : Cfg ρ) (hpt : cfg.pretraining_rounds = 0) :
    ∀ (cls : List (ClientOps ρ σ TW × σ)) (i : ℕ) (cur : List SD)
      (ta te ra : List ℚ) (tws : List TW),
    ∃ (cls1 : List (ClientOps ρ σ TW × σ)) (trip : List (Option SD × TW × SD))
      (newTA newTE newRA : List ℚ),
      runClients cfg 0 i cls ⟨[cur], [ta], [te], [ra], [.collecting tws]⟩ =
        .ok (cls1,
             ⟨[cur ++ trip.map (fun x => x.2.2)], [ta ++ newTA], [te ++ newTE],
              [ra ++ newRA], [.collecting (tws ++ trip.map (fun x => x.2.1))]⟩,
             roundLogZero cfg.num_local_epochs i cur trip) ∧
      cls1.length = cls.length ∧ trip.length = cls.length ∧
      newTA.length = cls.length ∧ newTE.length = cls.length ∧
      newRA.length = cls.length := by
  intro cls
  induction cls with
  | nil =>
    intro i cur ta te ra tws
    exact ⟨[], [], [], [], [],
      by simp [runClients, roundLogZero], rfl, rfl, rfl, rfl, rfl⟩
  | cons p rest ih =>
    intro i cur ta te ra tws
    obtain ⟨cs1, sd, a, b, r, hstep⟩ :=
      clientStep_zero cfg i p.1 p.2 cur ta te ra tws hpt
    obtain ⟨cls1, trip, nTA, nTE, nRA, hrun, hl1, hl2, hl3, hl4, hl5⟩ :=
      ih (i + 1) (cur ++ [sd]) (ta ++ [a]) (te ++ [b]) (ra ++ [r])
        (tws ++ [(p.1.calcTarget p.2 0 cur).2])
    refine ⟨(p.1, cs1) :: cls1,
      ((p.1.calcTarget p.2 0 cur).1, (p.1.calcTarget p.2 0 cur).2, sd) :: trip,
      a :: nTA, b :: nTE, r :: nRA, ?_,
      by simp [hl1], by simp [hl2], by simp [hl3], by simp [hl4], by simp [hl5]⟩
    simp only [runClients, hstep, hrun]
    simp [roundLogZero, List.append_assoc]


end Trainer

/-! ### Projections of the round logs -/

theorem calcArgs_append {TW : Type} (l1 l2 : List (Event TW)) :
    calcArgs (l1 ++ l2) = calcArgs l1 ++ calcArgs l2 := by
  induction l1 with
  | nil => rfl
  | cons ev rest ih => cases ev <;> simp [calcArgs, ih]

theorem calcTWs_append {TW : Type} (l1 l2 : List (Event TW)) :
    calcTWs (l1 ++ l2) = calcTWs l1 ++ calcTWs l2 := by
  induction l1 with
  | nil => rfl
  | cons ev rest ih => cases ev <;> simp [calcTWs, ih]

theorem inferredSDs_append {TW : Type} (l1 l2 : List (Event TW)) :
    inferredSDs (l1 ++ l2) = inferredSDs l1 ++ inferredSDs l2 := by
  induction l1 with
  | nil => rfl
  | cons ev rest ih => cases ev <;> simp [inferredSDs, ih]

theorem trainCallPairs_append {TW : Type} (l1 l2 : List (Event TW)) :
    trainCallPairs (l1 ++ l2) = trainCallPairs l1 ++ trainCallPairs l2 := by
  induction l1 with
  | nil => rfl
  | cons ev rest ih => cases ev <;> simp [trainCallPairs, ih]

theorem calcArgs_replicate_trainCall {TW : Type} (n i : ℕ) (t : Option SD) :
    calcArgs (List.replicate n (Event.trainCall i t : Event TW)) = [] := by
  induction n with
  | zero => rfl
  | succ m ih => simp [List.replicate_succ, calcArgs, ih]

theorem calcTWs_replicate_trainCall {TW : Type} (n i : ℕ) (t : Option SD) :
    calcTWs (List.replicate n (Event.trainCall i t : Event TW)) = [] := by
  induction n with
  | zero => rfl
  | succ m ih => simp [List.replicate_succ, calcTWs, ih]

theorem inferredSDs_replicate_trainCall {TW : Type} (n i : ℕ) (t : Option SD) :
    inferredSDs (List.replicate n (Event.trainCall i t : Event TW)) = [] := by
  induction n with
  | zero => rfl
  | succ m ih => simp [List.replicate_succ, inferredSDs, ih]

theorem trainCallPairs_replicate {TW : Type} (n i : ℕ) (t : Option SD) :
    trainCallPairs (List.replicate n (Event.trainCall i t : Event TW)) =
      List.replicate n (i, t) := by
  induction n with
  | zero => rfl
  | succ m ih => simp [List.replicate_succ, trainCallPairs, ih]

theorem inferredSDs_roundLogPre {TW : Type} (nl : ℕ) :
    ∀ (sds : List SD) (i : ℕ), inferredSDs ((roundLogPre nl i sds : List (Event TW))) = sds := by
  intro sds
  induction sds with
  | nil => intro i; rfl
  | cons sd rest ih =>
    intro i
    simp [roundLogPre, inferredSDs_append, inferredSDs_replicate_trainCall,
      inferredSDs, ih]

theorem calcArgs_roundLogPre {TW : Type} (nl : ℕ) :
    ∀ (sds : List SD) (i : ℕ), calcArgs ((roundLogPre nl i sds : List (Event TW))) = [] := by
  intro sds
  induction sds with
  | nil => intro i; rfl
  | cons sd rest ih =>
    intro i
    simp [roundLogPre, calcArgs_append, calcArgs_replicate_trainCall, calcArgs, ih]

theorem calcTWs_roundLogPre {TW : Type} (nl : ℕ) :
    ∀ (sds : List SD) (i : ℕ), calcTWs ((roundLogPre nl i sds : List (Event TW))) = [] := by
  intro sds
  induction sds with
  | nil => intro i; rfl
  | cons sd rest ih =>
    intro i
    simp [roundLogPre, calcTWs_append, calcTWs_replicate_trainCall, calcTWs, ih]

theorem trainCallPairs_roundLogPre {TW : Type} (nl : ℕ) :
    ∀ (sds : List SD) (i : ℕ),
      trainCallPairs ((roundLogPre nl i sds : List (Event TW))) =
        trainBlocks nl i (List.replicate sds.length none) := by
  intro sds
  induction sds with
  | nil => intro i; rfl
  | cons sd rest ih =>
    intro i
    simp [roundLogPre, trainCallPairs_append, trainCallPairs_replicate,
      trainCallPairs, ih, trainBlocks, List.replicate_succ]

theorem inferredSDs_roundLogDist {TW : Type} (nl e : ℕ) (P : List SD) :
    ∀ (trip : List (Option SD × TW × SD)) (i : ℕ),
      inferredSDs (roundLogDist nl e P i trip) = trip.map (fun x => x.2.2) := by
  intro trip
  induction trip with
  | nil => intro i; rfl
  | cons x rest ih =>
    intro i
    simp [roundLogDist, inferredSDs_append, inferredSDs_replicate_trainCall,
      inferredSDs, ih]

theorem calcArgs_roundLogDist {TW : Type} (nl e : ℕ) (P : List SD) :
    ∀ (trip : List (Option SD × TW × SD)) (i : ℕ),
      calcArgs (roundLogDist nl e P i trip) =
        (List.range' i trip.length).map (fun k => (k, e, P)) := by
  intro trip
  induction trip with
  | nil => intro i; rfl
  | cons x rest ih =>
    intro i
    simp [roundLogDist, calcArgs_append, calcArgs_replicate_trainCall, calcArgs,
      ih, List.range'_succ]

theorem calcTWs_roundLogDist {TW : Type} (nl e : ℕ) (P : List SD) :
    ∀ (trip : List (Option SD × TW × SD)) (i : ℕ),
      calcTWs (roundLogDist nl e P i trip) = trip.map (fun x => x.2.1) := by
  intro trip
  induction trip with
  | nil => intro i; rfl
  | cons x rest ih =>
    intro i
    simp [roundLogDist, calcTWs_append, calcTWs_replicate_trainCall, calcTWs, ih]

theorem trainCallPairs_roundLogDist {TW : Type} (nl e : ℕ) (P : List SD) :
    ∀ (trip : List (Option SD × TW × SD)) (i : ℕ),
      trainCallPairs (roundLogDist nl e P i trip) =
        trainBlocks nl i (trip.map (fun x => x.1)) := by
  intro trip
  induction trip with
  | nil => intro i; rfl
  | cons x rest ih =>
    intro i
    simp [roundLogDist, trainCallPairs_append, trainCallPairs_replicate,
      trainCallPairs, ih, trainBlocks]

theorem inferredSDs_roundLogZero {TW : Type} (nl : ℕ) :
    ∀ (trip : List (Option SD × TW × SD)) (i : ℕ) (cur : List SD),
      inferredSDs (roundLogZero nl i cur trip) = trip.map (fun x => x.2.2) := by
  intro trip
  induction trip with
  | nil => intro i cur; rfl
  | cons x rest ih =>
    intro i cur
    simp [roundLogZero, inferredSDs_append, inferredSDs_replicate_trainCall,
      inferredSDs, ih]

theorem calcTWs_roundLogZero {TW : Type} (nl : ℕ) :
    ∀ (trip : List (Option SD × TW × SD)) (i : ℕ) (cur : List SD),
      calcTWs (roundLogZero nl i cur trip) = trip.map (fun x => x.2.1) := by
  intro trip
  induction trip with
  | nil => intro i cur; rfl
  | cons x rest ih =>
    intro i cur
    simp [roundLogZero, calcTWs_append, calcTWs_replicate_trainCall, calcTWs, ih]

theorem trainCallPairs_roundLogZero {TW : Type} (nl : ℕ) :
    ∀ (trip : List (Option SD × TW × SD)) (i : ℕ) (cur : List SD),
      trainCallPairs (roundLogZero nl i cur trip) =
        trainBlocks nl i (trip.map (fun x => x.1)) := by
  intro trip
  induction trip with
  | nil => intro i cur; rfl
  | cons x rest ih =>
    intro i cur
    simp [roundLogZero, trainCallPairs_append, trainCallPairs_replicate,
      trainCallPairs, ih, trainBlocks]

theorem calcArgs_roundLogZero {TW : Type} (nl : ℕ) :
    ∀ (trip : List (Option SD × TW × SD)) (i : ℕ) (cur : List SD),
      calcArgs (roundLogZero nl i cur trip) =
        (List.range trip.length).map
          (fun j => (i + j, 0, cur ++ (trip.map (fun x => x.2.2)).take j)) := by
  intro trip
  induction trip with
  | nil => intro i cur; rfl
  | cons x rest ih =>
    intro i cur
    simp only [roundLogZero, calcArgs, calcArgs_append,
      calcArgs_replicate_trainCall, List.nil_append, ih, List.length_cons,
      List.range_succ_eq_map, List.map_cons, List.map_map]
    congr 1
    · simp
    · apply List.map_congr_left
      intro j hj
      have harith : i + 1 + j = i + (j + 1) := by omega
      simp [List.append_assoc, harith]

namespace Trainer

variable {ρ σ TW : Type}

theorem roundBody_spec (cfg : Cfg ρ) (e : ℕ) (pT pR : ℚ)
    (cls : List (ClientOps ρ σ TW × σ)) (st : Hists TW)
    (hS : e = st.soft_decisions.length) (hTA : e = st.train_accuracies.length)
    (hTE : e = st.test_accuracies.length) (hRA : e = st.ref_accuracies.length)
    (hTW : e = st.trust_weights_round.length) :
    ∃ (cls1 : List (ClientOps ρ σ TW × σ)) (o : RoundOut TW),
      roundBody cfg e pT pR cls st =
        .ok (cls1,
             ⟨st.soft_decisions ++ [o.sds], st.train_accuracies ++ [o.tas],
              st.test_accuracies ++ [o.tes], st.ref_accuracies ++ [o.ras],
              st.trust_weights_round ++ [consolidate (.collecting o.tws)]⟩,
             ⟨e, npMean o.tes, npMean o.tes - (if e = 0 then npMean o.tes else pT),
              npMean o.ras, npMean o.ras - (if e = 0 then npMean o.ras else pR)⟩,
             o.evs) ∧
      cls1.length = cls.length ∧
      RoundOutOk cfg cls.length e (st.soft_decisions.getD (e - 1) []) o := by
  obtain ⟨S, TA, TE, RA, TWL⟩ := st
  simp only at hS hTA hTE hRA hTW ⊢
  have hda : dictAssign TWL e (TrustEntry.collecting ([] : List TW)) =
      TWL ++ [.collecting []] := by
    rw [hTW]; exact dictAssign_append _ _
  by_cases hpre : e < cfg.pretraining_rounds
  · obtain ⟨cls1, nSD, nTA, nTE, nRA, hrun, hl1, hl2, hl3, hl4, hl5⟩ :=
      runClients_pre cfg e hpre S TA TE RA (TWL ++ [.collecting []])
        hS hTA hTE hRA cls 0 [] [] [] []
    simp only [List.nil_append] at hrun
    have hTEget : listGetE (TE ++ [nTE]) e = .ok nTE := by
      rw [hTE]; exact listGetE_append_last _ _
    have hRAget : listGetE (RA ++ [nRA]) e = .ok nRA := by
      rw [hRA]; exact listGetE_append_last _ _
    refine ⟨cls1, ⟨nSD, nTA, nTE, nRA, [],
      roundLogPre cfg.num_local_epochs 0 nSD⟩, ?_, hl1, ?_⟩
    · rw [roundBody]
      simp only [allocRound, hda, hrun,
        modifyE_last_ok TWL (TrustEntry.collecting ([] : List TW)) consolidate e hTW,
        hTEget, hRAget]
    · refine ⟨hl2, hl3, hl4, hl5, ?_, fun _ => ⟨rfl, ?_, ?_⟩, fun hge => by omega⟩
      · simp [inferredSDs_roundLogPre]
      · simp [calcArgs_roundLogPre]
      · simp only [trainCallPairs_roundLogPre, hl2]
  · have hge : cfg.pretraining_rounds ≤ e := Nat.not_lt.mp hpre
    by_cases he0 : 1 ≤ e
    · obtain ⟨cls1, trip, nTA, nTE, nRA, hrun, hl1, hl2, hl3, hl4, hl5⟩ :=
        runClients_dist cfg e hge he0 S TA TE RA TWL hS hTA hTE hRA hTW
          cls 0 [] [] [] [] []
      simp only [List.nil_append] at hrun
      have hTEget : listGetE (TE ++ [nTE]) e = .ok nTE := by
        rw [hTE]; exact listGetE_append_last _ _
      have hRAget : listGetE (RA ++ [nRA]) e = .ok nRA := by
        rw [hRA]; exact listGetE_append_last _ _
      refine ⟨cls1, ⟨trip.map (fun x => x.2.2), nTA, nTE, nRA,
        trip.map (fun x => x.2.1),
        roundLogDist cfg.num_local_epochs e (S.getD (e - 1) []) 0 trip⟩,
        ?_, hl1, ?_⟩
      · rw [roundBody]
        simp only [allocRound, hda, hrun,
          modifyE_last_ok TWL (TrustEntry.collecting
            (trip.map (fun x => x.2.1))) consolidate e hTW,
          hTEget, hRAget]
      · refine ⟨by simp [hl2], hl3, hl4, hl5, ?_, fun hlt => by omega,
          fun _ => ⟨by simp [hl2], ?_, ⟨trip.map (fun x => x.1), by simp [hl2], ?_⟩,
            fun _ => ?_, fun hz => by omega⟩⟩
        · simp [inferredSDs_roundLogDist]
        · simp [calcTWs_roundLogDist]
        · simp [trainCallPairs_roundLogDist]
        · rw [calcArgs_roundLogDist, List.range_eq_range']
          simp [hl2]
    · have he : e = 0 := by omega
      subst he
      have hS0 : S = [] := by
        cases S with
        | nil => rfl
        | cons a l => simp at hS
      have hTA0 : TA = [] := by
        cases TA with
        | nil => rfl
        | cons a l => simp at hTA
      have hTE0 : TE = [] := by
        cases TE with
        | nil => rfl
        | cons a l => simp at hTE
      have hRA0 : RA = [] := by
        cases RA with
        | nil => rfl
        | cons a l => simp at hRA
      have hTW0 : TWL = [] := by
        cases TWL with
        | nil => rfl
        | cons a l => simp at hTW
      subst hS0 hTA0 hTE0 hRA0 hTW0
      have hpt0 : cfg.pretraining_rounds = 0 := by omega
      obtain ⟨cls1, trip, nTA, nTE, nRA, hrun, hl1, hl2, hl3, hl4, hl5⟩ :=
        runClients_zero cfg hpt0 cls 0 [] [] [] [] []
      simp only [List.nil_append] at hrun
      have hTEget : listGetE ([nTE] : List (List ℚ)) 0 = .ok nTE := rfl
      have hRAget : listGetE ([nRA] : List (List ℚ)) 0 = .ok nRA := rfl
      refine ⟨cls1, ⟨trip.map (fun x => x.2.2), nTA, nTE, nRA,
        trip.map (fun x => x.2.1),
        roundLogZero cfg.num_local_epochs 0 [] trip⟩, ?_, hl1, ?_⟩
      · rw [roundBody]
        simp only [allocRound, hda, List.nil_append, hrun,
          show modifyE [TrustEntry.collecting (trip.map (fun x => x.2.1))] 0
              (fun t => .ok (consolidate t)) =
            .ok [consolidate (.collecting (trip.map (fun x => x.2.1)))] from rfl,
          hTEget, hRAget]
      · refine ⟨by simp [hl2], hl3, hl4, hl5, ?_, fun hlt => by omega,
          fun _ => ⟨by simp [hl2], ?_, ⟨trip.map (fun x => x.1), by simp [hl2], ?_⟩,
            fun h1 => by omega, fun _ => ?_⟩⟩
        · simp [inferredSDs_roundLogZero]
        · simp [calcTWs_roundLogZero]
        · simp [trainCallPairs_roundLogZero]
        · rw [calcArgs_roundLogZero]
          simp [hl2]

end Trainer

namespace Trainer

variable {ρ σ TW : Type}

theorem RoundOutOk_prev_irrel (cfg : Cfg ρ) (n : ℕ) (P Q : List SD)
    (o : RoundOut TW) (h : RoundOutOk cfg n 0 P o) : RoundOutOk cfg n 0 Q o := by
  obtain ⟨a, b, c, d, f, g, h1⟩ := h
  exact ⟨a, b, c, d, f, g, fun hle =>
    ⟨(h1 hle).1, (h1 hle).2.1, (h1 hle).2.2.1,
     fun hcontra => absurd hcontra (by omega), (h1 hle).2.2.2.2⟩⟩

theorem trainAux_spec (cfg : Cfg ρ) :
    ∀ (n e : ℕ) (pT pR : ℚ) (cls : List (ClientOps ρ σ TW × σ)) (st : Hists TW),
    e = st.soft_decisions.length → e = st.train_accuracies.length →
    e = st.test_accuracies.length → e = st.ref_accuracies.length →
    e = st.trust_weights_round.length →
    ∃ (r : RunResult ρ σ TW) (outs : List (RoundOut TW)),
      trainAux cfg n e pT pR cls st = .ok r ∧
      outs.length = n ∧
      r.clients.length = cls.length ∧
      r.hists.soft_decisions = st.soft_decisions ++ outs.map (fun o => o.sds) ∧
      r.hists.train_accuracies =
        st.train_accuracies ++ outs.map (fun o => o.tas) ∧
      r.hists.test_accuracies = st.test_accuracies ++ outs.map (fun o => o.tes) ∧
      r.hists.ref_accuracies = st.ref_accuracies ++ outs.map (fun o => o.ras) ∧
      r.hists.trust_weights_round =
        st.trust_weights_round ++
          outs.map (fun o => consolidate (.collecting o.tws)) ∧
      r.log = outs.map (fun o => o.evs) ∧
      r.reports =
        reportsOf e pT pR (outs.map (fun o => (npMean o.tes, npMean o.ras))) ∧
      (∀ j, j < n →
        RoundOutOk cfg cls.length (e + j)
          (r.hists.soft_decisions.getD (e + j - 1) [])
          (outs.getD j (RoundOut.default TW))) := by
  intro n
  induction n with
  | zero =>
    intro e pT pR cls st hS hTA hTE hRA hTW
    exact ⟨⟨cls, st, [], []⟩, [], rfl, rfl, rfl,
      (List.append_nil _).symm, (List.append_nil _).symm,
      (List.append_nil _).symm, (List.append_nil _).symm,
      (List.append_nil _).symm, rfl, rfl, fun j hj => absurd hj (by omega)⟩
  | succ n ih =>
    intro e pT pR cls st hS hTA hTE hRA hTW
    obtain ⟨cls1, o, hbody, hlen1, hok⟩ :=
      roundBody_spec cfg e pT pR cls st hS hTA hTE hRA hTW
    obtain ⟨r, outs, haux, houtl, hcl, h1, h2, h3, h4, h5, hlog, hreps, hrok⟩ :=
      ih (e + 1) (npMean o.tes) (npMean o.ras) cls1
        ⟨st.soft_decisions ++ [o.sds], st.train_accuracies ++ [o.tas],
         st.test_accuracies ++ [o.tes], st.ref_accuracies ++ [o.ras],
         st.trust_weights_round ++ [consolidate (.collecting o.tws)]⟩
        (by simp [hS]) (by simp [hTA]) (by simp [hTE]) (by simp [hRA])
        (by simp [hTW])
    have hsd : r.hists.soft_decisions =
        st.soft_decisions ++ (o :: outs).map (fun o => o.sds) := by
      rw [h1]; simp [List.append_assoc]
    refine ⟨⟨r.clients, r.hists,
      ⟨e, npMean o.tes, npMean o.tes - (if e = 0 then npMean o.tes else pT),
       npMean o.ras, npMean o.ras - (if e = 0 then npMean o.ras else pR)⟩ ::
        r.reports, o.evs :: r.log⟩, o :: outs, ?_, by simp [houtl],
      hcl.trans hlen1, hsd, ?_, ?_, ?_, ?_, ?_, ?_, ?_⟩
    · simp only [trainAux, hbody, haux]
    · rw [h2]; simp [List.append_assoc]
    · rw [h3]; simp [List.append_assoc]
    · rw [h4]; simp [List.append_assoc]
    · rw [h5]; simp [List.append_assoc]
    · simp [hlog]
    · simp [reportsOf, hreps]
    · intro j hj
      cases j with
      | zero =>
        simp only [Nat.add_zero, List.getD_cons_zero]
        by_cases he : 1 ≤ e
        · have hget : r.hists.soft_decisions.getD (e - 1) [] =
              st.soft_decisions.getD (e - 1) [] := by
            rw [hsd]
            exact List.getD_append _ _ _ _ (by omega)
          rw [hget]
          exact hok
        · have he0 : e = 0 := by omega
          subst he0
          exact RoundOutOk_prev_irrel cfg cls.length _ _ o hok
      | succ k =>
        have harith : e + (k + 1) = e + 1 + k := by omega
        rw [harith, List.getD_cons_succ]
        have hfact := hrok k (by omega)
        rw [hlen1] at hfact
        exact hfact

end Trainer

theorem getD_map_of_lt {α β : Type} (l : List α) (f : α → β) (j : ℕ) (d : β)
    (d0 : α) (h : j < l.length) : (l.map f).getD j d = f (l.getD j d0) := by
  simp [List.getD_eq_getElem?_getD, List.getElem?_eq_getElem h]

theorem reportsOf_length :
    ∀ (ms : List (ℚ × ℚ)) (e0 : ℕ) (pT pR : ℚ),
      (reportsOf e0 pT pR ms).length = ms.length := by
  intro ms
  induction ms with
  | nil => intro e0 pT pR; rfl
  | cons m rest ih => intro e0 pT pR; simp [reportsOf, ih]

theorem reportsOf_getD :
    ∀ (ms : List (ℚ × ℚ)) (e0 : ℕ) (pT pR : ℚ) (j : ℕ), j < ms.length →
      (reportsOf e0 pT pR ms).getD j ⟨0, 0, 0, 0, 0⟩ =
        ⟨e0 + j, (ms.getD j (0, 0)).1,
         (ms.getD j (0, 0)).1 -
           (if e0 + j = 0 then (ms.getD j (0, 0)).1
            else if j = 0 then pT else (ms.getD (j - 1) (0, 0)).1),
         (ms.getD j (0, 0)).2,
         (ms.getD j (0, 0)).2 -
           (if e0 + j = 0 then (ms.getD j (0, 0)).2
            else if j = 0 then pR else (ms.getD (j - 1) (0, 0)).2)⟩ := by
  intro ms
  induction ms with
  | nil => intro e0 pT pR j hj; simp at hj
  | cons m rest ih =>
    intro e0 pT pR j hj
    cases j with
    | zero => simp [reportsOf]
    | succ k =>
      simp only [reportsOf, List.getD_cons_succ]
      rw [ih (e0 + 1) m.1 m.2 k (by simp at hj; omega)]
      have h1 : e0 + 1 + k = e0 + (k + 1) := by omega
      have h2 : ¬ (e0 + (k + 1) = 0) := by omega
      cases k with
      | zero => simp [h1, h2]
      | succ k2 => simp [h1, h2]

namespace Trainer

variable {ρ σ TW : Type}

theorem trainResult_spec (cfg : Cfg ρ) (cls : List (ClientOps ρ σ TW × σ))
    (N : ℕ) :
    ∃ (r : RunResult ρ σ TW) (outs : List (RoundOut TW)),
      trainResult cfg cls N = .ok r ∧
      outs.length = N ∧
      r.clients.length = cls.length ∧
      r.hists.soft_decisions = outs.map (fun o => o.sds) ∧
      r.hists.train_accuracies = outs.map (fun o => o.tas) ∧
      r.hists.test_accuracies = outs.map (fun o => o.tes) ∧
      r.hists.ref_accuracies = outs.map (fun o => o.ras) ∧
      r.hists.trust_weights_round =
        outs.map (fun o => consolidate (.collecting o.tws)) ∧
      r.log = outs.map (fun o => o.evs) ∧
      r.reports =
        reportsOf 0 0 0 (outs.map (fun o => (npMean o.tes, npMean o.ras))) ∧
      (∀ j, j < N →
        RoundOutOk cfg cls.length j (r.hists.soft_decisions.getD (j - 1) [])
          (outs.getD j (RoundOut.default TW))) := by
  obtain ⟨r, outs, hok, houtl, hcl, h1, h2, h3, h4, h5, hlog, hreps, hrok⟩ :=
    trainAux_spec cfg N 0 0 0 cls (emptyHists TW) rfl rfl rfl rfl rfl
  simp only [emptyHists, List.nil_append] at h1 h2 h3 h4 h5
  refine ⟨r, outs, hok, houtl, hcl, h1, h2, h3, h4, h5, hlog, hreps, ?_⟩
  intro j hj
  have := hrok j hj
  simpa using this

end Trainer

/-! ### Claim theorems -/

/-- Claim C6: construction with a metric identifier inside the enumerated
set succeeds and selects the corresponding scoring function; anything
outside the set raises `UnknownNameCustomEnumException` at construction
time, before any round can execute. -/
theorem metric_resolution_at_init {ρ σ TW : Type} (acc_fn bacc_fn : ScoreFn)
    (clients : List (ClientOps ρ σ TW × σ)) (rl : ρ) (css : List ℕ)
    (pt nl : ℕ) :
    Trainer.init acc_fn bacc_fn clients rl css pt nl MetricName.acc =
      .ok (⟨rl, css, pt, nl, .acc, acc_fn⟩, clients, Trainer.emptyHists TW) ∧
    Trainer.init acc_fn bacc_fn clients rl css pt nl MetricName.bacc =
      .ok (⟨rl, css, pt, nl, .bacc, bacc_fn⟩, clients, Trainer.emptyHists TW) ∧
    (∀ s, Trainer.init acc_fn bacc_fn clients rl css pt nl
        (MetricName.unknown s) =
      .error (.unknownNameCustomEnum (.unknown s))) :=
  ⟨rfl, rfl, fun _ => rfl⟩

/-- Claim C1: in every distillation round `e` with `1 ≤ e` of a run of `N`
rounds, `calculate_soft_decision_target` is called exactly once per client,
in client order, each call passing epoch `e` and exactly the complete
client-ordered collection of soft decisions produced by all clients in
round `e - 1` (and nothing from any other round). -/
theorem calc_target_uses_prev_round {ρ σ TW : Type} (cfg : Cfg ρ)
    (cls : List (ClientOps ρ σ TW × σ)) (N e : ℕ) (he1 : 1 ≤ e)
    (he2 : cfg.pretraining_rounds ≤ e) (heN : e < N) :
    distillCallsSpec cfg cls N e := by
  obtain ⟨r, outs, hok, houtl, hcl, hsd, hta, hte, hra, htw, hlog, hreps, hrok⟩ :=
    Trainer.trainResult_spec cfg cls N
  obtain ⟨hsl, _, _, _, hinf, _, hdist⟩ := hrok e heN
  obtain ⟨hsl1, _, _, _, hinf1, _, _⟩ := hrok (e - 1) (by omega)
  have hle : r.log.getD e [] = (outs.getD e (RoundOut.default TW)).evs := by
    rw [hlog]; exact getD_map_of_lt _ _ _ _ _ (by omega)
  have hle1 : r.log.getD (e - 1) [] =
      (outs.getD (e - 1) (RoundOut.default TW)).evs := by
    rw [hlog]; exact getD_map_of_lt _ _ _ _ _ (by omega)
  have hsde1 : r.hists.soft_decisions.getD (e - 1) [] =
      (outs.getD (e - 1) (RoundOut.default TW)).sds := by
    rw [hsd]; exact getD_map_of_lt _ _ _ _ _ (by omega)
  refine ⟨r, hok, ?_, ?_⟩
  · rw [hle1, hinf1, hsl1]
  · rw [hle, (hdist he2).2.2.2.1 he1, hsde1, hle1, hinf1]

/-- Witness for C1 at a concrete two-client run (pretraining 1, two
rounds, checking round 1). -/
theorem calc_target_uses_prev_round_witness :
    1 ≤ 1 ∧ (demoCfg 1).pretraining_rounds ≤ 1 ∧ 1 < 2 ∧
    distillCallsSpec (demoCfg 1) demoClients 2 1 :=
  ⟨by decide, by decide, by decide,
   calc_target_uses_prev_round (demoCfg 1) demoClients 2 1 (by decide)
     (by decide) (by decide)⟩

/-- Claim C4: with `pretraining_rounds ≥ 1`, round 0 never calls
`calculate_soft_decision_target` and trains every client exactly
`num_local_epochs` times with target `None`. -/
theorem pretraining_round_zero_local_only {ρ σ TW : Type} (cfg : Cfg ρ)
    (cls : List (ClientOps ρ σ TW × σ)) (N : ℕ)
    (hpt : 1 ≤ cfg.pretraining_rounds) (hN : 0 < N) :
    pretrainRoundZeroSpec cfg cls N := by
  obtain ⟨r, outs, hok, houtl, hcl, hsd, hta, hte, hra, htw, hlog, hreps, hrok⟩ :=
    Trainer.trainResult_spec cfg cls N
  obtain ⟨_, _, _, _, _, hpre, _⟩ := hrok 0 hN
  have hle : r.log.getD 0 [] = (outs.getD 0 (RoundOut.default TW)).evs := by
    rw [hlog]; exact getD_map_of_lt _ _ _ _ _ (by omega)
  obtain ⟨htws, hargs, hcalls⟩ := hpre (by omega)
  exact ⟨r, hok, by rw [hle, hargs], by rw [hle, hcalls]⟩

/-- Witness for C4 at the concrete two-client run. -/
theorem pretraining_round_zero_local_only_witness :
    1 ≤ (demoCfg 1).pretraining_rounds ∧ 0 < 2 ∧
    pretrainRoundZeroSpec (demoCfg 1) demoClients 2 :=
  ⟨by decide, by decide,
   pretraining_round_zero_local_only (demoCfg 1) demoClients 2 (by decide)
     (by decide)⟩

/-- Claim C5: in every round `e` of a run, the `client.train` calls are,
in client order, exactly `num_local_epochs` consecutive calls per client
passing that client's single target (never recomputed between local
epochs). -/
theorem local_epoch_call_pattern {ρ σ TW : Type} (cfg : Cfg ρ)
    (cls : List (ClientOps ρ σ TW × σ)) (N e : ℕ) (heN : e < N) :
    localEpochCallsSpec cfg cls N e := by
  obtain ⟨r, outs, hok, houtl, hcl, hsd, hta, hte, hra, htw, hlog, hreps, hrok⟩ :=
    Trainer.trainResult_spec cfg cls N
  obtain ⟨_, _, _, _, _, hpre, hdist⟩ := hrok e heN
  have hle : r.log.getD e [] = (outs.getD e (RoundOut.default TW)).evs := by
    rw [hlog]; exact getD_map_of_lt _ _ _ _ _ (by omega)
  by_cases hph : e < cfg.pretraining_rounds
  · obtain ⟨_, _, hcalls⟩ := hpre hph
    exact ⟨r, hok, List.replicate cls.length none, by simp,
      by rw [hle, hcalls]⟩
  · obtain ⟨_, _, ⟨ts, hts, hcalls⟩, _, _⟩ := hdist (Nat.not_lt.mp hph)
    exact ⟨r, hok, ts, hts, by rw [hle, hcalls]⟩

/-- Witness for C5 at the concrete two-client run (round 1 of 2). -/
theorem local_epoch_call_pattern_witness :
    1 < 2 ∧ localEpochCallsSpec (demoCfg 1) demoClients 2 1 :=
  ⟨by decide, local_epoch_call_pattern (demoCfg 1) demoClients 2 1 (by decide)⟩

/-- Claim C10: with `pretraining_rounds = 0`, round 0 raises no error;
Python's `-1` lookback selects round 0's own collection, so client `i`
receives exactly the partial sequence of soft decisions produced by the
clients before it in round 0 (the first client receives the empty
sequence). -/
theorem wraparound_round_zero_partial_prior {ρ σ TW : Type} (cfg : Cfg ρ)
    (cls : List (ClientOps ρ σ TW × σ)) (N : ℕ)
    (hpt : cfg.pretraining_rounds = 0) (hN : 0 < N) :
    zeroPretrainRoundZeroSpec cfg cls N := by
  obtain ⟨r, outs, hok, houtl, hcl, hsd, hta, hte, hra, htw, hlog, hreps, hrok⟩ :=
    Trainer.trainResult_spec cfg cls N
  obtain ⟨_, _, _, _, hinf, _, hdist⟩ := hrok 0 hN
  have hle : r.log.getD 0 [] = (outs.getD 0 (RoundOut.default TW)).evs := by
    rw [hlog]; exact getD_map_of_lt _ _ _ _ _ (by omega)
  obtain ⟨_, _, _, _, hzero⟩ := hdist (by omega)
  exact ⟨r, hok, by rw [hle, hzero rfl, hinf]⟩

/-- Witness for C10 at the concrete two-client run with pretraining 0. -/
theorem wraparound_round_zero_partial_prior_witness :
    (demoCfg 0).pretraining_rounds = 0 ∧ 0 < 1 ∧
    zeroPretrainRoundZeroSpec (demoCfg 0) demoClients 1 :=
  ⟨rfl, by decide,
   wraparound_round_zero_partial_prior (demoCfg 0) demoClients 1 rfl
     (by decide)⟩

/-- Claim C2 (violated by the code): with `pretraining_rounds = 0`,
construction succeeds with no validation error, and round 0 is not forced
into Local-Only: `calculate_soft_decision_target` is invoked, the first
client receiving the empty wraparound collection `soft_decisions[-1]`
(round 0's own partial list) and the second client the soft decision the
first client just produced. -/
theorem pretraining_zero_not_rejected :
    exceptIsOk (Trainer.init demoMetric demoMetric demoClients () [3, 4] 0 1
      MetricName.acc) = true ∧
    calcArgs ((Trainer.runResultD (demoCfg 0) demoClients 1).log.getD 0 []) =
      [(0, 0, []), (1, 0, [[[1, 1]]])] :=
  ⟨rfl, by decide⟩

/-- Claim C3 counterexample: in the concrete run with `pretraining_rounds
= 1`, the round-0 trust-weight slot is literally the ambiguous empty
Python list, not a tagged "not collected" marker distinct from an empty
container. -/
theorem trust_slot_is_empty_list :
    ¬ notCollectedMarker
        ((Trainer.runResultD (demoCfg 1) demoClients 1).hists.trust_weights_round.getD
          0 (TrustEntry.stacked [])) :=
  fun h => h (by decide)

/-- Amended claim C3: for every completed round `e`, the trust-weight slot
is the empty Python list whenever `e < pretraining_rounds`, and (with at
least one client) a single stacked client-ordered tensor holding exactly
the trust weights returned by the clients whenever
`e ≥ pretraining_rounds`. -/
theorem trust_history_shape {ρ σ TW : Type} (cfg : Cfg ρ)
    (cls : List (ClientOps ρ σ TW × σ)) (N : ℕ) (hn : 0 < cls.length) :
    trustHistorySpec cfg cls N := by
  obtain ⟨r, outs, hok, houtl, hcl, hsd, hta, hte, hra, htw, hlog, hreps, hrok⟩ :=
    Trainer.trainResult_spec cfg cls N
  refine ⟨r, hok, ?_⟩
  intro e he
  have htwe : r.hists.trust_weights_round.getD e (.stacked []) =
      consolidate (.collecting (outs.getD e (RoundOut.default TW)).tws) := by
    rw [htw]; exact getD_map_of_lt _ _ _ _ _ (by omega)
  have hle : r.log.getD e [] = (outs.getD e (RoundOut.default TW)).evs := by
    rw [hlog]; exact getD_map_of_lt _ _ _ _ _ (by omega)
  obtain ⟨_, _, _, _, _, hpre, hdist⟩ := hrok e he
  constructor
  · intro hlt
    obtain ⟨htws, _, _⟩ := hpre hlt
    rw [htwe, htws]
    rfl
  · intro hge
    obtain ⟨htwl, hctw, _, _, _⟩ := hdist hge
    cases hcase : (outs.getD e (RoundOut.default TW)).tws with
    | nil => rw [hcase] at htwl; simp at htwl; omega
    | cons w ws =>
      refine ⟨w :: ws, ?_, ?_, ?_⟩
      · rw [htwe, hcase]; rfl
      · rw [← hcase]; exact htwl
      · rw [hle, hctw, hcase]

/-- Witness for amended C3 at the concrete two-client run. -/
theorem trust_history_shape_witness :
    0 < demoClients.length ∧ trustHistorySpec (demoCfg 1) demoClients 2 :=
  ⟨by decide, trust_history_shape (demoCfg 1) demoClients 2 (by decide)⟩

/-- Claim C7: `train(N)` on a freshly constructed trainer runs exactly `N`
rounds with no early exit and returns the trust-weight, test-accuracy and
ref-accuracy histories, with one entry per round and one accuracy value per
client per round. -/
theorem train_returns_complete_histories {ρ σ TW : Type} (cfg : Cfg ρ)
    (cls : List (ClientOps ρ σ TW × σ)) (N : ℕ) (hN : 0 < N) :
    historiesShapeSpec cfg cls N := by
  obtain ⟨r, outs, hok, houtl, hcl, hsd, hta, hte, hra, htw, hlog, hreps, hrok⟩ :=
    Trainer.trainResult_spec cfg cls N
  refine ⟨r.hists.trust_weights_round, r.hists.test_accuracies,
    r.hists.ref_accuracies, ?_, ?_, ?_, ?_, ?_, ?_⟩
  · simp only [Trainer.train, hok]
  · rw [htw]; simp [houtl]
  · rw [hte]; simp [houtl]
  · rw [hra]; simp [houtl]
  · intro row hrow
    rw [hte] at hrow
    obtain ⟨o, ho, rfl⟩ := List.mem_map.mp hrow
    obtain ⟨j, hj, rfl⟩ := List.mem_iff_getElem.mp ho
    have hfact := (hrok j (by omega)).2.2.1
    rw [List.getD_eq_getElem outs (RoundOut.default TW) hj] at hfact
    exact hfact
  · intro row hrow
    rw [hra] at hrow
    obtain ⟨o, ho, rfl⟩ := List.mem_map.mp hrow
    obtain ⟨j, hj, rfl⟩ := List.mem_iff_getElem.mp ho
    have hfact := (hrok j (by omega)).2.2.2.1
    rw [List.getD_eq_getElem outs (RoundOut.default TW) hj] at hfact
    exact hfact

/-- Witness for C7 at the concrete two-client run. -/
theorem train_returns_complete_histories_witness :
    0 < 2 ∧ historiesShapeSpec (demoCfg 1) demoClients 2 :=
  ⟨by decide,
   train_returns_complete_histories (demoCfg 1) demoClients 2 (by decide)⟩

/-- Claim C8: the reported round-0 mean deltas are zero (the baseline is
set to round 0's own means), and for every round `e ≥ 1` the reported
delta is round `e`'s mean minus round `e - 1`'s mean, the current means
being carried forward as the next baseline. -/
theorem report_mean_deltas {ρ σ TW : Type} (cfg : Cfg ρ)
    (cls : List (ClientOps ρ σ TW × σ)) (N : ℕ) (hn : 0 < cls.length) :
    reportDeltaSpec cfg cls N := by
  obtain ⟨r, outs, hok, houtl, hcl, hsd, hta, hte, hra, htw, hlog, hreps, hrok⟩ :=
    Trainer.trainResult_spec cfg cls N
  have hmsl : (outs.map (fun o => (npMean o.tes, npMean o.ras))).length = N := by
    simp [houtl]
  refine ⟨r, hok, by rw [hreps, reportsOf_length, hmsl], ?_⟩
  intro e he
  have hms : ∀ j, j < N →
      (outs.map (fun o => (npMean o.tes, npMean o.ras))).getD j (0, 0) =
        (npMean (outs.getD j (RoundOut.default TW)).tes,
         npMean (outs.getD j (RoundOut.default TW)).ras) := by
    intro j hj
    exact getD_map_of_lt _ _ _ _ _ (by omega)
  have htee : ∀ j, j < N → r.hists.test_accuracies.getD j [] =
      (outs.getD j (RoundOut.default TW)).tes := by
    intro j hj
    rw [hte]; exact getD_map_of_lt _ _ _ _ _ (by omega)
  have hrae : ∀ j, j < N → r.hists.ref_accuracies.getD j [] =
      (outs.getD j (RoundOut.default TW)).ras := by
    intro j hj
    rw [hra]; exact getD_map_of_lt _ _ _ _ _ (by omega)
  have hrep := reportsOf_getD (outs.map (fun o => (npMean o.tes, npMean o.ras)))
    0 0 0 e (by omega)
  rw [hms e he] at hrep
  refine ⟨?_, ?_, ?_, ?_, ?_⟩
  · rw [hreps, hrep]
    simp
  · rw [hreps, hrep, htee e he]
  · rw [hreps, hrep, hrae e he]
  · intro he0
    subst he0
    rw [hreps, hrep]
    simp
  · intro hge
    have he1 : e - 1 < N := by omega
    have hc : ¬ e = 0 := by omega
    constructor
    · rw [hreps, hrep]
      simp only [if_neg (show ¬ (0 + e = 0) by omega), if_neg hc]
      rw [hms (e - 1) he1, htee e he, htee (e - 1) he1]
    · rw [hreps, hrep]
      simp only [if_neg (show ¬ (0 + e = 0) by omega), if_neg hc]
      rw [hms (e - 1) he1, hrae e he, hrae (e - 1) he1]

/-- Witness for C8 at the concrete two-client run. -/
theorem report_mean_deltas_witness :
    0 < demoClients.length ∧ reportDeltaSpec (demoCfg 1) demoClients 2 :=
  ⟨by decide, report_mean_deltas (demoCfg 1) demoClients 2 (by decide)⟩

/-- Extensionally equal clients are equal (capability records are
function records). -/
theorem ClientOps.ext_eq {ρ σ TW : Type} {c d : ClientOps ρ σ TW}
    (h : ClientOps.ext c d) : c = d := by
  obtain ⟨h1, h2, h3, h4⟩ := h
  cases c
  cases d
  simp only [ClientOps.mk.injEq]
  refine ⟨?_, ?_, ?_, ?_⟩
  · funext s rl t; exact h1 s rl t
  · funext s m md; exact h2 s m md
  · funext s rl; exact h3 s rl
  · funext s e p; exact h4 s e p

/-- Claim C9: two runs with identical construction configuration and
identically-behaving deterministic clients and metric produce identical
returned histories (the orchestrator introduces no nondeterminism). -/
theorem deterministic_runs {ρ σ TW : Type} (cfg1 cfg2 : Cfg ρ)
    (cls1 cls2 : List (ClientOps ρ σ TW × σ)) (N : ℕ)
    (hrl : cfg1.ref_loader = cfg2.ref_loader)
    (hcss : cfg1.clients_sample_size = cfg2.clients_sample_size)
    (hpt : cfg1.pretraining_rounds = cfg2.pretraining_rounds)
    (hnl : cfg1.num_local_epochs = cfg2.num_local_epochs)
    (hmn : cfg1.metric_name = cfg2.metric_name)
    (hm : ∀ y p, cfg1.metric y p = cfg2.metric y p)
    (hcls : List.Forall₂ (fun a b => ClientOps.ext a.1 b.1 ∧ a.2 = b.2)
      cls1 cls2) :
    Trainer.train cfg1 cls1 N = Trainer.train cfg2 cls2 N := by
  have hmf : cfg1.metric = cfg2.metric := by funext y p; exact hm y p
  have hcfg : cfg1 = cfg2 := by
    cases cfg1
    cases cfg2
    simp only at hrl hcss hpt hnl hmn hmf
    simp [hrl, hcss, hpt, hnl, hmn, hmf]
  have hcl : cls1 = cls2 := by
    induction hcls with
    | nil => rfl
    | cons hab htail ih =>
      rw [ih]
      obtain ⟨hext, hst⟩ := hab
      rw [Prod.ext_iff.mpr ⟨ClientOps.ext_eq hext, hst⟩]
  rw [hcfg, hcl]

/-- Witness for C9: the hypotheses hold between the concrete run and
itself, so the two runs agree. -/
theorem deterministic_runs_witness :
    Trainer.train (demoCfg 1) demoClients 2 =
      Trainer.train (demoCfg 1) demoClients 2 :=
  deterministic_runs (demoCfg 1) (demoCfg 1) demoClients demoClients 2 rfl rfl
    rfl rfl rfl (fun _ _ => rfl)
    (List.Forall₂.cons ⟨⟨fun _ _ _ => rfl, fun _ _ _ => rfl, fun _ _ => rfl,
        fun _ _ _ => rfl⟩, rfl⟩
      (List.Forall₂.cons ⟨⟨fun _ _ _ => rfl, fun _ _ _ => rfl, fun _ _ => rfl,
          fun _ _ _ => rfl⟩, rfl⟩ List.Forall₂.nil))
